import Mathlib

/-!
# ksort: document extraction, classification and rendering

A shallow embedding of `options.run` in `cmd/ksort.go`: the loop that splits the content
of a file into documents and classifies them, and the loop that prints the sorted
manifests.

Go strings are modelled as lists of characters (`Str`); every operation of `run` on text
(the two regular expressions, `strings.Trim` with the cutset `"\n"`, `strings.TrimSpace`)
works on whole characters.  The two regular expressions of `run`, `kind:(.*)\n` and
`(?m)^---.*$`, are embedded as the matchers they denote under Go's leftmost-first
semantics, where `.` matches every character except the newline, `^` with the flag `m`
holds at the start of the text and after a newline, and `$` with the flag `m` holds at
the end of the text and before a newline.

The sort itself, `tiller.SortByKind`, is code of the imported package
`k8s.io/helm/pkg/tiller`; it is modelled from the specification, see `sortByKind`.
-/

set_option maxRecDepth 100000

namespace Ksort

/-- Text, as a sequence of characters. -/
abbrev Str := List Char

/-- The constant `kindUnknown = "Unknown"`. -/
def kindUnknown : Str := ['U', 'n', 'k', 'n', 'o', 'w', 'n']

/-- The literal `---` that opens the separator pattern `(?m)^---.*$`. -/
def sepLit : Str := ['-', '-', '-']

/-- The literal `kind:` that opens the pattern `kind:(.*)\n`. -/
def kindLit : Str := ['k', 'i', 'n', 'd', ':']

/-- The value `tiller.Manifest{Name: k, Content: doc, Head: &util.SimpleHead{Kind: h}}`
as `run` builds it: only these three fields are set and read. -/
structure Manifest where
  name : Str
  content : Str
  kind : Str
deriving DecidableEq

/-- Where the scan for `(?m)^---.*$` stands: at the start of a line (`^` holds), inside
a line, or inside a match, consuming `.*` up to the end of the line. -/
inductive Mode where
  | lineStart
  | inLine
  | inSep
deriving DecidableEq

/-- The mode after reading the character `c` outside a match. -/
def Mode.after (c : Char) : Mode :=
  if c = '\n' then Mode.lineStart else Mode.inLine

/-- The successive matches of `(?m)^---.*$` and the text between them, read left to
right: the result is the text before the first match that starts in the input and the
list of those matches, each paired with the text that follows it up to the next match.
In mode `inSep` the input starts inside a match, whose remaining characters are skipped
up to the end of the line. -/
def scan : Mode → Str → Str × List (Str × Str)
  | _, [] => ([], [])
  | Mode.inSep, c :: cs =>
    if c = '\n' then ((c :: (scan Mode.lineStart cs).1), (scan Mode.lineStart cs).2)
    else scan Mode.inSep cs
  | m, c :: cs =>
    if m = Mode.lineStart ∧ sepLit <+: c :: cs then
      ([], (c :: cs.takeWhile (· ≠ '\n'), (scan Mode.inSep cs).1) :: (scan Mode.inSep cs).2)
    else ((c :: (scan (Mode.after c) cs).1), (scan (Mode.after c) cs).2)

/-- The matches of `sep = (?m)^---.*$` in `v`, in order, as `sep.Split` finds them (the
texts that `sep.FindAllString(v, -1)` returns). -/
def FindAllString (v : Str) : List Str :=
  (scan Mode.lineStart v).2.map Prod.fst

/-- The call `sep.Split(v, -1)`: the text before the first match, between consecutive
matches and after the last one.  `Split` leaves out a piece only before a match that ends
at offset 0 and after a last match that starts at the end of the text; a match of `sep`
has at least three characters, so neither happens, and the empty text gives the single
piece `""`. -/
def Split (v : Str) : List Str :=
  (scan Mode.lineStart v).1 :: (scan Mode.lineStart v).2.map Prod.snd

/-- An attempt to match `kind:(.*)\n` at the head of `s`: the submatch `(.*)` is the rest
of the line, and the line has to end in a newline. -/
def matchKindAt (s : Str) : Option Str :=
  if kindLit <+: s ∧ '\n' ∈ s.drop kindLit.length then
    some ((s.drop kindLit.length).takeWhile (· ≠ '\n'))
  else none

/-- The submatch of `re.FindStringSubmatch(doc)` for `re = kind:(.*)\n`: the leftmost
position where the pattern matches decides; `none` when `doc` has no match. -/
def FindStringSubmatch : Str → Option Str
  | [] => none
  | c :: cs =>
    match matchKindAt (c :: cs) with
    | some v => some v
    | none => FindStringSubmatch cs

/-- The predicate `unicode.IsSpace`: the white space characters of Unicode, by code
point. -/
def isSpace (c : Char) : Bool :=
  c = '\t' || c = '\n' || c.toNat = 0x0B || c.toNat = 0x0C || c = '\r' || c = ' ' ||
  c.toNat = 0x85 || c.toNat = 0xA0 || c.toNat = 0x1680 ||
  (0x2000 ≤ c.toNat && c.toNat ≤ 0x200A) || c.toNat = 0x2028 || c.toNat = 0x2029 ||
  c.toNat = 0x202F || c.toNat = 0x205F || c.toNat = 0x3000

/-- The call `strings.TrimSpace(s)`. -/
def TrimSpace (s : Str) : Str :=
  (s.dropWhile isSpace).rdropWhile isSpace

/-- The call `strings.Trim(doc, "\n")`. -/
def trimNewlines (doc : Str) : Str :=
  (doc.dropWhile (· = '\n')).rdropWhile (· = '\n')

/-- The kind `h` that `run` gives to the fragment `doc`. -/
def kindOf (doc : Str) : Str :=
  match FindStringSubmatch doc with
  | some v => TrimSpace v
  | none => kindUnknown

/-- The body of the loop over `docs`: a fragment of length zero is skipped, any other
becomes one manifest. -/
def manifestOf (k : Str) (doc : Str) : Option Manifest :=
  if doc.length = 0 then none
  else some { name := k, content := trimNewlines doc, kind := kindOf doc }

/-- The manifests that `run` appends for the file `k` with content `v`. -/
def extract (k v : Str) : List Manifest :=
  (Split v).filterMap (manifestOf k)

/-- The warning that `run` prints for a manifest of kind `Unknown`. -/
def warningLine : Str :=
  "# WARNING: It looks like that this file is not a manifest file".toList

/-- What one round of the output loop prints for the manifest `m`. -/
def renderOne (m : Manifest) : Str :=
  "---\n# Source: ".toList ++ m.name ++ ['\n'] ++
    (if m.kind = kindUnknown then warningLine ++ ['\n'] else m.content ++ ['\n'])

/-- The text that the output loop of `run` prints for the ordered manifests `ms`. -/
def render (ms : List Manifest) : Str :=
  (ms.map renderOne).flatten

/-- The text `f₀ ++ m₁ ++ f₁ ++ ... ++ mₙ ++ fₙ` made of the pieces `f₀, ..., fₙ` and the
separators `m₁, ..., mₙ` between them. -/
def reassemble : List Str → List Str → Str
  | [], _ => []
  | f :: _, [] => f
  | f :: fs, m :: ms => f ++ m ++ reassemble fs ms

/-- Whether some line of `s` begins with `---`; the head of `s` counts as the start of a
line when `bol` is set. -/
def hasSepLine : Bool → Str → Bool
  | _, [] => false
  | bol, c :: cs => (bol && decide (sepLit <+: c :: cs)) || hasSepLine (decide (c = '\n')) cs

/-- The classification as the specification words it (section 4.1), for comparison with
`FindStringSubmatch`: the first occurrence of `kind:<value>` followed by a newline that
begins at the start of a line; `bol` tells whether the head of the text starts a line. -/
def specFindKind : Bool → Str → Option Str
  | _, [] => none
  | bol, c :: cs =>
    match (if bol then matchKindAt (c :: cs) else none) with
    | some v => some v
    | none => specFindKind (decide (c = '\n')) cs

/-- The kind as the specification words it (section 4.1), for comparison with `kindOf`. -/
def specKindOf (doc : Str) : Str :=
  match specFindKind true doc with
  | some v => TrimSpace v
  | none => kindUnknown

/-- The output as the specification words it (section 6), for comparison with
`renderOne`: separator line, source comment, a warning for the kind `Unknown`, and the
content in every case. -/
def specRenderOne (m : Manifest) : Str :=
  "---\n# Source: ".toList ++ m.name ++ ['\n'] ++
    (if m.kind = kindUnknown then warningLine ++ ['\n'] else []) ++ m.content ++ ['\n']

/-- Modelled from the spec: the 0-based position of a kind in the Kind Precedence Table,
which is the table length for a kind absent from the table (section 4.2, comparator
step 1); the table of `tiller.SortByKind` is not part of the sources. -/
def position (kind : Str) : List Str → Nat
  | [] => 0
  | k :: ks => if k = kind then 0 else position kind ks + 1

/-- Modelled from the spec: the rank of a kind (section 4.2, comparator steps 1 and 2).
The function `tiller.SortByKind` and its precedence table belong to the package
`k8s.io/helm/pkg/tiller`, which `run` imports and whose code is not part of the sources;
the table is therefore a parameter.  The rank is the 0-based position of the kind in the
table, the table length for a kind absent from it, and the table length plus one for the
sentinel `Unknown`. -/
def rank (table : List Str) (kind : Str) : Nat :=
  if kind = kindUnknown then table.length + 1 else position kind table

/-- Modelled from the spec: the comparator of section 4.2, step 3 (lower rank sorts
first); the code of `tiller.SortByKind` is not part of the sources. -/
def rankLE (table : List Str) (a b : Manifest) : Prop :=
  rank table a.kind ≤ rank table b.kind

instance (table : List Str) : DecidableRel (rankLE table) :=
  fun a b => inferInstanceAs (Decidable (rank table a.kind ≤ rank table b.kind))

instance (table : List Str) : IsTotal Manifest (rankLE table) :=
  ⟨fun a b => Nat.le_total (rank table a.kind) (rank table b.kind)⟩

instance (table : List Str) : IsTrans Manifest (rankLE table) :=
  ⟨fun _ _ _ h₁ h₂ => Nat.le_trans h₁ h₂⟩

/-- Modelled from the spec: one step of the stable sort of section 4.2; the code of
`tiller.SortByKind` is not part of the sources.  The record `m`, which stood before all
of `xs` in the input, goes before the first record whose rank is not lower than its
own. -/
def insertByKind (table : List Str) (m : Manifest) : List Manifest → List Manifest
  | [] => [m]
  | x :: xs =>
    if rank table m.kind ≤ rank table x.kind then m :: x :: xs
    else x :: insertByKind table m xs

/-- Modelled from the spec: `sortByKind` (section 4.2), the stable sort of the records by
rank: lower rank first, records of equal rank in their input order.  The code of
`tiller.SortByKind`, which `run` calls, is not part of the sources. -/
def sortByKind (table : List Str) : List Manifest → List Manifest
  | [] => []
  | m :: ms => insertByKind table m (sortByKind table ms)

/-! ### Sample inputs -/

/-- A source name. -/
def sampleSource : Str := "f".toList

/-- A text with one separator line and newlines around its document. -/
def sampleText : Str := "---\n\nkind: Pod\n\n".toList

/-- The record that `sampleText` gives. -/
def sampleRecord : Manifest :=
  { name := "f".toList, content := "kind: Pod".toList, kind := "Pod".toList }

/-- A text with two separator lines and a `---` inside a line. -/
def dashText : Str := "a: ---\n---\nb\n--- x\nc".toList

/-- The first record that `dashText` gives. -/
def dashRecord : Manifest :=
  { name := "f".toList, content := "a: ---".toList, kind := kindUnknown }

/-- A text without a separator line and without `kind:`. -/
def plainText : Str := "a: b\n".toList

/-- A precedence table of three kinds. -/
def sampleTable : List Str :=
  ["Namespace".toList, "ConfigMap".toList, "Deployment".toList]

/-- Three records, two of them of the same kind. -/
def sampleRecords : List Manifest :=
  [{ name := "a".toList, content := "1".toList, kind := "Deployment".toList },
   { name := "b".toList, content := "2".toList, kind := "Namespace".toList },
   { name := "c".toList, content := "3".toList, kind := "Deployment".toList }]

/-! ## The sorter -/

/-- The position of a kind is at most the table length. -/
theorem position_le_length (kind : Str) (table : List Str) :
    position kind table ≤ table.length := by
  induction table with
  | nil => simp [position]
  | cons k ks ih =>
    simp only [position, List.length_cons]
    split <;> omega

/-- Kinds other than `Unknown` rank at most the table length. -/
theorem rank_le_length (table : List Str) (kind : Str) (h : kind ≠ kindUnknown) :
    rank table kind ≤ table.length := by
  simp only [rank, if_neg h]
  exact position_le_length kind table

/-- The rank of `Unknown` is the table length plus one. -/
theorem rank_unknown (table : List Str) : rank table kindUnknown = table.length + 1 := by
  simp [rank]

/-- The insertion step is the ordered insertion for the order by rank. -/
theorem insertByKind_eq (table : List Str) (m : Manifest) (xs : List Manifest) :
    insertByKind table m xs = xs.orderedInsert (rankLE table) m := by
  induction xs with
  | nil => rfl
  | cons x xs ih =>
    simp only [insertByKind, List.orderedInsert, rankLE, ih]

/-- The sort is the insertion sort for the order by rank. -/
theorem sortByKind_eq (table : List Str) (xs : List Manifest) :
    sortByKind table xs = xs.insertionSort (rankLE table) := by
  induction xs with
  | nil => rfl
  | cons m ms ih => simp only [sortByKind, List.insertionSort, insertByKind_eq, ih]

/-- The output of `sortByKind` is sorted by rank. -/
theorem sortByKind_sorted (table : List Str) (xs : List Manifest) :
    (sortByKind table xs).Sorted (rankLE table) := by
  rw [sortByKind_eq]
  exact List.sorted_insertionSort (rankLE table) xs

/-- The output of `sortByKind` is a permutation of the input. -/
theorem sortByKind_perm_input (table : List Str) (xs : List Manifest) :
    (sortByKind table xs).Perm xs := by
  rw [sortByKind_eq]
  exact List.perm_insertionSort (rankLE table) xs

/-- C1: rank monotonicity.  In `sortByKind table xs` every adjacent pair `(a, b)` has
`rank a.kind ≤ rank b.kind`, and so has every pair where `a` comes before `b`; no record
of another kind comes after a record of kind `Unknown`; and the kinds
`[Unknown, Namespace]` sort to `[Namespace, Unknown]`, whatever the table. -/
theorem sortByKind_rank_monotone (table : List Str) (xs : List Manifest) :
    (sortByKind table xs).Chain' (fun a b => rank table a.kind ≤ rank table b.kind) ∧
    (sortByKind table xs).Pairwise (fun a b => rank table a.kind ≤ rank table b.kind) ∧
    (sortByKind table xs).Pairwise (fun a b => a.kind = kindUnknown → b.kind = kindUnknown) ∧
    (∀ s₁ c₁ s₂ c₂ : Str,
      (sortByKind table [⟨s₁, c₁, kindUnknown⟩, ⟨s₂, c₂, "Namespace".toList⟩]).map Manifest.kind
        = ["Namespace".toList, kindUnknown]) := by
  have hs : (sortByKind table xs).Pairwise (rankLE table) := sortByKind_sorted table xs
  refine ⟨List.Pairwise.chain' hs, hs, ?_, ?_⟩
  · refine hs.imp ?_
    intro a b hab ha
    by_contra hb
    have h₁ : rank table b.kind ≤ table.length := rank_le_length table b.kind hb
    have h₂ : rank table a.kind = table.length + 1 := by rw [ha]; exact rank_unknown table
    have h₃ : rank table a.kind ≤ rank table b.kind := hab
    omega
  · intro s₁ c₁ s₂ c₂
    have hne : "Namespace".toList ≠ kindUnknown := by decide
    generalize "Namespace".toList = ns at hne ⊢
    have h₁ : rank table ns ≤ table.length := rank_le_length table _ hne
    have h₂ : ¬ rankLE table ⟨s₁, c₁, kindUnknown⟩ ⟨s₂, c₂, ns⟩ := by
      simp only [rankLE, rank_unknown]
      omega
    have h₃ : ¬ rank table kindUnknown ≤ rank table ns := h₂
    simp [sortByKind, insertByKind, h₃]

/-- C2: stability.  Two records of equal rank keep their relative order: if `a` occurs
before `b` in `xs` then `a` occurs before `b` in `sortByKind table xs`; and for every
rank `n`, the records of rank `n` are the same sequence in the output as in the input. -/
theorem sortByKind_stable (table : List Str) (xs : List Manifest) :
    (∀ a b : Manifest, rank table a.kind = rank table b.kind →
      List.Sublist [a, b] xs → List.Sublist [a, b] (sortByKind table xs)) ∧
    (∀ n : Nat, (sortByKind table xs).filter (fun m => rank table m.kind = n)
      = xs.filter (fun m => rank table m.kind = n)) := by
  constructor
  · intro a b hab hsub
    rw [sortByKind_eq]
    exact List.pair_sublist_insertionSort (Nat.le_of_eq hab) hsub
  · intro n
    have hpw : (xs.filter (fun m => rank table m.kind = n)).Pairwise (rankLE table) := by
      rw [List.pairwise_iff_forall_sublist]
      intro a b hsub
      have ha : a ∈ xs.filter (fun m => rank table m.kind = n) := hsub.subset (by simp)
      have hb : b ∈ xs.filter (fun m => rank table m.kind = n) := hsub.subset (by simp)
      simp only [List.mem_filter, decide_eq_true_eq] at ha hb
      simp only [rankLE, ha.2, hb.2, le_refl]
    have hsub : List.Sublist (xs.filter (fun m => rank table m.kind = n))
        (sortByKind table xs) := by
      rw [sortByKind_eq]
      exact List.sublist_insertionSort hpw (List.filter_sublist xs)
    have hsub₂ := hsub.filter (fun m => decide (rank table m.kind = n))
    rw [List.filter_filter] at hsub₂
    simp only [Bool.and_self] at hsub₂
    have hlen : ((sortByKind table xs).filter (fun m => rank table m.kind = n)).length
        = (xs.filter (fun m => rank table m.kind = n)).length :=
      ((sortByKind_perm_input table xs).filter _).length_eq
    exact (hsub₂.eq_of_length hlen.symm).symm

/-- C3: permutation.  The output of `sortByKind` is a permutation of its input: every
record occurs in the output as often as in the input, and the length is the same. -/
theorem sortByKind_perm (table : List Str) (xs : List Manifest) :
    (sortByKind table xs).Perm xs ∧
    (∀ m : Manifest, (sortByKind table xs).count m = xs.count m) ∧
    (sortByKind table xs).length = xs.length := by
  have h : (sortByKind table xs).Perm xs := sortByKind_perm_input table xs
  exact ⟨h, fun m => h.count_eq m, h.length_eq⟩

/-- C9: idempotence.  Sorting a sorted sequence again changes nothing. -/
theorem sortByKind_idempotent (table : List Str) (xs : List Manifest) :
    sortByKind table (sortByKind table xs) = sortByKind table xs := by
  rw [sortByKind_eq table (sortByKind table xs)]
  exact List.Sorted.insertionSort_eq (sortByKind_sorted table xs)

/-! ## The separator scan -/

/-- The scan of the empty text. -/
theorem scan_nil (m : Mode) : scan m [] = ([], []) := by
  cases m <;> rfl

/-- One step of the scan inside a match. -/
theorem scan_inSep_cons (c : Char) (cs : Str) :
    scan Mode.inSep (c :: cs) =
      if c = '\n' then ((c :: (scan Mode.lineStart cs).1), (scan Mode.lineStart cs).2)
      else scan Mode.inSep cs := rfl

/-- One step of the scan at the start of a line. -/
theorem scan_lineStart_cons (c : Char) (cs : Str) :
    scan Mode.lineStart (c :: cs) =
      if sepLit <+: c :: cs then
        ([], (c :: cs.takeWhile (· ≠ '\n'), (scan Mode.inSep cs).1) :: (scan Mode.inSep cs).2)
      else ((c :: (scan (Mode.after c) cs).1), (scan (Mode.after c) cs).2) := by
  simp [scan]

/-- One step of the scan inside a line. -/
theorem scan_inLine_cons (c : Char) (cs : Str) :
    scan Mode.inLine (c :: cs) =
      ((c :: (scan (Mode.after c) cs).1), (scan (Mode.after c) cs).2) := by
  simp [scan]

/-- Reading a character outside a match never leads into a match. -/
theorem after_ne_inSep (c : Char) : Mode.after c ≠ Mode.inSep := by
  unfold Mode.after
  split <;> simp

/-- A text that starts with `---`, taken apart. -/
theorem sepLit_starts_cons {c : Char} {cs : Str} (h : sepLit <+: c :: cs) :
    c = '-' ∧ ∃ t, cs = '-' :: '-' :: t := by
  obtain ⟨t, ht⟩ := h
  simp only [sepLit, List.cons_append, List.nil_append, List.cons.injEq] at ht
  exact ⟨ht.1.symm, t, ht.2.symm⟩

/-- Nothing is lost by the scan: outside a match the pieces and matches make up the
input, inside a match the rest of the line and then the pieces and matches do. -/
theorem scan_text (m : Mode) (s : Str) :
    (if m = Mode.inSep then s.takeWhile (· ≠ '\n') else []) ++ (scan m s).1 ++
      ((scan m s).2.map (fun p => p.1 ++ p.2)).flatten = s := by
  induction s generalizing m with
  | nil => simp [scan_nil]
  | cons c cs ih =>
    cases m with
    | inSep =>
      rw [scan_inSep_cons]
      by_cases hc : c = '\n'
      · have h := ih Mode.lineStart
        simp only [reduceCtorEq, if_false, List.nil_append] at h
        simp [hc, h]
      · have h := ih Mode.inSep
        simp only [if_true] at h
        simp only [if_neg hc, if_true]
        rw [List.takeWhile_cons_of_pos (by simpa using hc)]
        simp only [List.cons_append, List.append_assoc] at h ⊢
        rw [h]
    | lineStart =>
      rw [scan_lineStart_cons]
      by_cases hp : sepLit <+: c :: cs
      · have h := ih Mode.inSep
        simp only [if_true] at h
        simp only [if_pos hp, reduceCtorEq, if_false, List.nil_append, List.map_cons,
          List.flatten_cons, List.cons_append, List.append_assoc] at h ⊢
        rw [h]
      · have h := ih (Mode.after c)
        simp only [if_neg (after_ne_inSep c), List.nil_append] at h
        simp only [if_neg hp, reduceCtorEq, if_false, List.nil_append, List.cons_append]
        rw [h]
    | inLine =>
      rw [scan_inLine_cons]
      have h := ih (Mode.after c)
      simp only [if_neg (after_ne_inSep c), List.nil_append] at h
      simp only [reduceCtorEq, if_false, List.nil_append, List.cons_append]
      rw [h]

/-- The first piece of a scan outside a match is a prefix of the input. -/
theorem scan_fst_starts_text (m : Mode) (hm : m ≠ Mode.inSep) (s : Str) :
    (scan m s).1 <+: s := by
  have h := scan_text m s
  simp only [if_neg hm, List.nil_append] at h
  exact ⟨_, h⟩

/-- Every match begins with `---` and holds no newline. -/
theorem scan_sep_shape (m : Mode) (s : Str) :
    ∀ p ∈ (scan m s).2, sepLit <+: p.1 ∧ '\n' ∉ p.1 := by
  induction s generalizing m with
  | nil => simp [scan_nil]
  | cons c cs ih =>
    cases m with
    | inSep =>
      rw [scan_inSep_cons]
      by_cases hc : c = '\n'
      · simpa [hc] using ih Mode.lineStart
      · simpa [hc] using ih Mode.inSep
    | lineStart =>
      rw [scan_lineStart_cons]
      by_cases hp : sepLit <+: c :: cs
      · simp only [if_pos hp, List.mem_cons]
        rintro p (rfl | hp')
        · obtain ⟨hc, t, ht⟩ := sepLit_starts_cons hp
          subst hc ht
          refine ⟨⟨t.takeWhile (· ≠ '\n'), by simp [sepLit, List.takeWhile]⟩, ?_⟩
          intro hmem
          simp only [List.mem_cons] at hmem
          rcases hmem with h | h
          · exact absurd h (by decide)
          · have := List.mem_takeWhile_imp h
            simp at this
        · exact ih Mode.inSep p hp'
      · simpa [hp] using ih (Mode.after c)
    | inLine =>
      rw [scan_inLine_cons]
      simpa using ih (Mode.after c)

/-- A match runs to the end of its line: the piece after it is empty or starts with a
newline. -/
theorem scan_inSep_fst (s : Str) :
    (scan Mode.inSep s).1 = [] ∨ (scan Mode.inSep s).1.head? = some '\n' := by
  induction s with
  | nil => simp [scan_nil]
  | cons c cs ih =>
    rw [scan_inSep_cons]
    by_cases hc : c = '\n'
    · simp [hc]
    · simpa [hc] using ih

/-- Every piece after a match is empty or starts with a newline. -/
theorem scan_after_sep (m : Mode) (s : Str) :
    ∀ p ∈ (scan m s).2, p.2 = [] ∨ p.2.head? = some '\n' := by
  induction s generalizing m with
  | nil => simp [scan_nil]
  | cons c cs ih =>
    cases m with
    | inSep =>
      rw [scan_inSep_cons]
      by_cases hc : c = '\n'
      · simpa [hc] using ih Mode.lineStart
      · simpa [hc] using ih Mode.inSep
    | lineStart =>
      rw [scan_lineStart_cons]
      by_cases hp : sepLit <+: c :: cs
      · simp only [if_pos hp, List.mem_cons]
        rintro p (rfl | hp')
        · exact scan_inSep_fst cs
        · exact ih Mode.inSep p hp'
      · simpa [hp] using ih (Mode.after c)
    | inLine =>
      rw [scan_inLine_cons]
      simpa using ih (Mode.after c)

/-- A text ends with a newline when its tail does, or when it is a single newline. -/
theorem getLast?_cons_of_endsNL {c : Char} {f : Str}
    (h : (f = [] ∧ c = '\n') ∨ f.getLast? = some '\n') : (c :: f).getLast? = some '\n' := by
  cases f with
  | nil => simpa using h
  | cons d f =>
    rw [List.getLast?_cons_cons]
    simpa using h

/-- A match starts at the start of a line: the piece before it ends with a newline, or
is empty when the scan itself starts at the start of a line. -/
theorem scan_before_sep (m : Mode) (s : Str) :
    ((scan m s).2 ≠ [] →
      ((scan m s).1 = [] ∧ m = Mode.lineStart) ∨ (scan m s).1.getLast? = some '\n') ∧
    ∀ p ∈ (scan m s).2.dropLast, p.2.getLast? = some '\n' := by
  induction s generalizing m with
  | nil => simp [scan_nil]
  | cons c cs ih =>
    have step : ∀ m', m' = Mode.after c →
        (((scan m' cs).2 ≠ [] → (c :: (scan m' cs).1).getLast? = some '\n') ∧
        ∀ p ∈ (scan m' cs).2.dropLast, p.2.getLast? = some '\n') := by
      intro m' hm'
      refine ⟨fun hne => ?_, (ih m').2⟩
      apply getLast?_cons_of_endsNL
      rcases (ih m').1 hne with ⟨h₁, h₂⟩ | h
      · left
        refine ⟨h₁, ?_⟩
        rw [hm'] at h₂
        unfold Mode.after at h₂
        by_contra hc
        simp [hc] at h₂
      · exact Or.inr h
    cases m with
    | inSep =>
      rw [scan_inSep_cons]
      by_cases hc : c = '\n'
      · simp only [if_pos hc]
        have h := step Mode.lineStart (by simp [Mode.after, hc])
        exact ⟨fun hne => Or.inr (h.1 hne), h.2⟩
      · simp only [if_neg hc]
        have h := ih Mode.inSep
        refine ⟨fun hne => ?_, h.2⟩
        rcases h.1 hne with ⟨_, h₂⟩ | h'
        · exact absurd h₂ (by decide)
        · exact Or.inr h'
    | lineStart =>
      rw [scan_lineStart_cons]
      by_cases hp : sepLit <+: c :: cs
      · rw [if_pos hp]
        refine ⟨fun _ => Or.inl ⟨rfl, rfl⟩, ?_⟩
        intro p hmem
        have h := ih Mode.inSep
        by_cases hne : (scan Mode.inSep cs).2 = []
        · simp [hne] at hmem
        · rw [List.dropLast_cons_of_ne_nil hne, List.mem_cons] at hmem
          rcases hmem with rfl | hmem
          · rcases h.1 hne with ⟨_, h₂⟩ | h'
            · exact absurd h₂ (by decide)
            · exact h'
          · exact h.2 p hmem
      · simp only [if_neg hp]
        have h := step (Mode.after c) rfl
        exact ⟨fun hne => Or.inr (h.1 hne), h.2⟩
    | inLine =>
      rw [scan_inLine_cons]
      have h := step (Mode.after c) rfl
      exact ⟨fun hne => Or.inr (h.1 hne), h.2⟩

/-! ## Lines that begin with `---` -/

/-- One step of `hasSepLine`. -/
theorem hasSepLine_cons (bol : Bool) (c : Char) (cs : Str) :
    hasSepLine bol (c :: cs) =
      ((bol && decide (sepLit <+: c :: cs)) || hasSepLine (decide (c = '\n')) cs) := rfl

/-- The function `hasSepLine` finds every `---` that stands at the start of a line. -/
theorem hasSepLine_of_occurrence (bol : Bool) (pre post : Str)
    (h : (pre = [] ∧ bol = true) ∨ pre.getLast? = some '\n') :
    hasSepLine bol (pre ++ sepLit ++ post) = true := by
  induction pre generalizing bol with
  | nil =>
    have hb : bol = true := by simpa using h
    subst hb
    simp [sepLit, hasSepLine]
  | cons c pre ih =>
    simp only [List.cons_append, hasSepLine_cons, Bool.or_eq_true]
    right
    apply ih
    cases pre with
    | nil =>
      left
      simpa using h
    | cons d pre =>
      right
      simpa [List.getLast?_cons_cons] using h

/-- Where `hasSepLine` answers yes, a `---` stands at the start of a line. -/
theorem occurrence_of_hasSepLine (bol : Bool) (s : Str) (h : hasSepLine bol s = true) :
    ∃ pre post, s = pre ++ sepLit ++ post ∧
      ((pre = [] ∧ bol = true) ∨ pre.getLast? = some '\n') := by
  induction s generalizing bol with
  | nil => simp [hasSepLine] at h
  | cons c cs ih =>
    simp only [hasSepLine_cons, Bool.or_eq_true, Bool.and_eq_true, decide_eq_true_eq] at h
    rcases h with ⟨hb, t, ht⟩ | h
    · exact ⟨[], t, by simpa using ht.symm, Or.inl ⟨rfl, hb⟩⟩
    · obtain ⟨pre, post, hs, hpre⟩ := ih _ h
      refine ⟨c :: pre, post, by simp [hs], Or.inr ?_⟩
      apply getLast?_cons_of_endsNL
      rcases hpre with ⟨h₁, h₂⟩ | h'
      · exact Or.inl ⟨h₁, by simpa using h₂⟩
      · exact Or.inr h'

/-- A prefix of a text without such a line has none either. -/
theorem hasSepLine_of_append (bol : Bool) (p q : Str) (h : hasSepLine bol (p ++ q) = false) :
    hasSepLine bol p = false := by
  induction p generalizing bol with
  | nil => rfl
  | cons c p ih =>
    simp only [List.cons_append, hasSepLine_cons, Bool.or_eq_false_iff, Bool.and_eq_false_imp,
      decide_eq_false_iff_not, decide_eq_true_eq] at h ⊢
    refine ⟨fun hb hp => h.1 hb ?_, ih _ h.2⟩
    exact hp.trans ⟨q, by simp⟩

/-- Dropping leading newlines keeps a text free of such lines. -/
theorem hasSepLine_dropWhile (s : Str) (h : hasSepLine true s = false) :
    hasSepLine true (s.dropWhile (· = '\n')) = false := by
  induction s with
  | nil => rfl
  | cons c cs ih =>
    by_cases hc : c = '\n'
    · rw [List.dropWhile_cons_of_pos (by simpa using hc)]
      apply ih
      simp only [hasSepLine_cons, Bool.or_eq_false_iff] at h
      simpa [hc] using h.2
    · rw [List.dropWhile_cons_of_neg (by simpa using hc)]
      exact h

/-- Trimming the newlines of a text keeps it free of such lines. -/
theorem hasSepLine_trimNewlines (s : Str) (h : hasSepLine true s = false) :
    hasSepLine true (trimNewlines s) = false := by
  unfold trimNewlines
  obtain ⟨t, ht⟩ := List.rdropWhile_prefix (fun x => decide (x = '\n')) (s.dropWhile (· = '\n'))
  apply hasSepLine_of_append true _ t
  rw [ht]
  exact hasSepLine_dropWhile s h

/-- No piece of the scan holds a line that begins with `---`. -/
theorem scan_no_sepLine (m : Mode) (s : Str) :
    hasSepLine (decide (m ≠ Mode.inLine)) (scan m s).1 = false ∧
    ∀ p ∈ (scan m s).2, hasSepLine true p.2 = false := by
  induction s generalizing m with
  | nil => simp [scan_nil, hasSepLine]
  | cons c cs ih =>
    have step : ∀ bol : Bool, (bol = true → ¬ sepLit <+: c :: cs) →
        hasSepLine bol (c :: (scan (Mode.after c) cs).1) = false := by
      intro bol hb
      simp only [hasSepLine_cons, Bool.or_eq_false_iff, Bool.and_eq_false_imp,
        decide_eq_false_iff_not]
      constructor
      · intro hbol hp
        apply hb hbol
        obtain ⟨t, ht⟩ := scan_fst_starts_text (Mode.after c) (after_ne_inSep c) cs
        exact hp.trans ⟨t, by simp [ht]⟩
      · have h := (ih (Mode.after c)).1
        by_cases hc : c = '\n'
        · simpa [Mode.after, hc] using h
        · simpa [Mode.after, hc] using h
    cases m with
    | inSep =>
      rw [scan_inSep_cons]
      by_cases hc : c = '\n'
      · simp only [if_pos hc]
        refine ⟨?_, (ih Mode.lineStart).2⟩
        have h := (ih Mode.lineStart).1
        simp only [hasSepLine_cons, Bool.or_eq_false_iff, Bool.and_eq_false_imp,
          decide_eq_false_iff_not]
        constructor
        · intro _ hp
          have := (sepLit_starts_cons hp).1
          rw [hc] at this
          exact absurd this (by decide)
        · simpa [hc] using h
      · simp only [if_neg hc]
        exact ih Mode.inSep
    | lineStart =>
      rw [scan_lineStart_cons]
      by_cases hp : sepLit <+: c :: cs
      · rw [if_pos hp]
        refine ⟨rfl, ?_⟩
        intro p hmem
        rw [List.mem_cons] at hmem
        rcases hmem with rfl | hmem
        · simpa using (ih Mode.inSep).1
        · exact (ih Mode.inSep).2 p hmem
      · rw [if_neg hp]
        exact ⟨by simpa using step true (fun _ => hp), (ih (Mode.after c)).2⟩
    | inLine =>
      rw [scan_inLine_cons]
      exact ⟨by simpa using step false (by simp), (ih (Mode.after c)).2⟩

/-- A text without a line that begins with `---` has no match: it is a single piece. -/
theorem scan_of_no_sepLine (m : Mode) (hm : m ≠ Mode.inSep) (s : Str)
    (h : hasSepLine (decide (m = Mode.lineStart)) s = false) : scan m s = (s, []) := by
  induction s generalizing m with
  | nil => exact scan_nil m
  | cons c cs ih =>
    simp only [hasSepLine_cons, Bool.or_eq_false_iff, Bool.and_eq_false_imp,
      decide_eq_false_iff_not, decide_eq_true_eq] at h
    have hrec : scan (Mode.after c) cs = (cs, []) := by
      apply ih _ (after_ne_inSep c)
      by_cases hc : c = '\n'
      · simpa [Mode.after, hc] using h.2
      · simpa [Mode.after, hc] using h.2
    cases m with
    | inSep => exact absurd rfl hm
    | lineStart =>
      rw [scan_lineStart_cons, if_neg (h.1 rfl), hrec]
    | inLine =>
      rw [scan_inLine_cons, hrec]

/-! ## Trimming -/

/-- A text is what `rdropWhile` keeps followed by what it drops. -/
theorem rdropWhile_append_rtakeWhile (p : Char → Bool) (l : Str) :
    l.rdropWhile p ++ l.rtakeWhile p = l := by
  unfold List.rdropWhile List.rtakeWhile
  rw [← List.reverse_append, List.takeWhile_append_dropWhile, List.reverse_reverse]

/-- Trimming with `p` at both ends removes a run of `p` characters at the front and one at
the back, and what stays neither starts nor ends with a `p` character. -/
theorem trim_spec (p : Char → Bool) (l : Str) :
    ∃ a b, l = a ++ (l.dropWhile p).rdropWhile p ++ b ∧ (∀ x ∈ a, p x = true) ∧
      (∀ x ∈ b, p x = true) ∧
      (∀ x, ((l.dropWhile p).rdropWhile p).head? = some x → p x = false) ∧
      (∀ x, ((l.dropWhile p).rdropWhile p).getLast? = some x → p x = false) := by
  refine ⟨l.takeWhile p, (l.dropWhile p).rtakeWhile p, ?_, ?_, ?_, ?_, ?_⟩
  · rw [List.append_assoc, rdropWhile_append_rtakeWhile, List.takeWhile_append_dropWhile]
  · intro x hx
    exact List.mem_takeWhile_imp hx
  · intro x hx
    rw [List.rtakeWhile, List.mem_reverse] at hx
    exact List.mem_takeWhile_imp hx
  · intro x hx
    obtain ⟨t, ht⟩ := List.rdropWhile_prefix p (l.dropWhile p)
    have h := List.head?_dropWhile_not p l
    rw [← ht] at h
    cases hd : (l.dropWhile p).rdropWhile p with
    | nil => simp [hd] at hx
    | cons y ys =>
      rw [hd] at hx h
      simp only [List.head?_cons, Option.some.injEq] at hx
      subst hx
      simpa using h
  · intro x hx
    have hne : (l.dropWhile p).rdropWhile p ≠ [] := by
      intro h0
      simp [h0] at hx
    have h := List.rdropWhile_last_not p (l.dropWhile p) hne
    rw [List.getLast?_eq_getLast _ hne, Option.some.injEq] at hx
    rw [hx] at h
    simpa using h

/-! ## The kind pattern -/

/-- A text with a newline, cut at its first newline. -/
theorem split_at_newline (l : Str) (h : '\n' ∈ l) :
    l = l.takeWhile (· ≠ '\n') ++ '\n' :: (l.dropWhile (· ≠ '\n')).tail := by
  induction l with
  | nil => simp at h
  | cons c cs ih =>
    by_cases hc : c = '\n'
    · subst hc
      simp [List.takeWhile, List.dropWhile]
    · have hmem : '\n' ∈ cs := by
        rcases List.mem_cons.mp h with h' | h'
        · exact absurd h'.symm hc
        · exact h'
      rw [List.takeWhile_cons_of_pos (by simpa using hc),
        List.dropWhile_cons_of_pos (by simpa using hc), List.cons_append, ← ih hmem]

/-- The part of a text before its first newline holds no newline. -/
theorem newline_not_mem_takeWhile (l : Str) : '\n' ∉ l.takeWhile (· ≠ '\n') := by
  intro h
  have := List.mem_takeWhile_imp h
  simp at this

/-- A match at the head: `kind:`, the submatch, a newline. -/
theorem matchKindAt_some {s v : Str} (h : matchKindAt s = some v) :
    ∃ post, s = kindLit ++ v ++ '\n' :: post ∧ '\n' ∉ v := by
  unfold matchKindAt at h
  split at h
  · rename_i hc
    obtain ⟨⟨t, ht⟩, hnl⟩ := hc
    simp only [Option.some.injEq] at h
    have hd : s.drop kindLit.length = t := by
      rw [← ht]
      exact List.drop_left _ _
    rw [hd] at h hnl
    subst h
    refine ⟨(t.dropWhile (· ≠ '\n')).tail, ?_, newline_not_mem_takeWhile t⟩
    rw [List.append_assoc, ← split_at_newline t hnl, ht]
  · simp at h

/-- No match at the head: the text does not start with `kind:` or its first line does
not end. -/
theorem matchKindAt_none {s : Str} (h : matchKindAt s = none) :
    ∀ rest, s = kindLit ++ rest → '\n' ∉ rest := by
  intro rest hs hnl
  unfold matchKindAt at h
  rw [if_pos] at h
  · simp at h
  · refine ⟨⟨rest, hs.symm⟩, ?_⟩
    rw [hs]
    rw [List.drop_left]
    exact hnl

/-- When the search succeeds, the submatch is the rest of the line after the leftmost
`kind:` whose line ends in a newline. -/
theorem FindStringSubmatch_some {doc v : Str} (h : FindStringSubmatch doc = some v) :
    ∃ pre post, doc = pre ++ kindLit ++ v ++ '\n' :: post ∧ '\n' ∉ v ∧
      ∀ pre' rest', doc = pre' ++ kindLit ++ rest' → '\n' ∈ rest' →
        pre.length ≤ pre'.length := by
  induction doc with
  | nil => simp [FindStringSubmatch] at h
  | cons c cs ih =>
    unfold FindStringSubmatch at h
    cases hm : matchKindAt (c :: cs) with
    | some w =>
      rw [hm] at h
      simp only [Option.some.injEq] at h
      subst h
      obtain ⟨post, hs, hv⟩ := matchKindAt_some hm
      exact ⟨[], post, by simpa using hs, hv, fun _ _ _ _ => Nat.zero_le _⟩
    | none =>
      rw [hm] at h
      obtain ⟨pre, post, hs, hv, hmin⟩ := ih h
      refine ⟨c :: pre, post, by simp [hs], hv, ?_⟩
      intro pre' rest' hs' hnl
      cases pre' with
      | nil => exact absurd hnl (matchKindAt_none hm rest' (by simpa using hs'))
      | cons d pre'' =>
        simp only [List.cons_append, List.cons.injEq] at hs'
        have := hmin pre'' rest' (by simpa using hs'.2) hnl
        simpa using this

/-- When the search fails, no `kind:` of the text stands in a line that ends in a
newline. -/
theorem FindStringSubmatch_none {doc : Str} (h : FindStringSubmatch doc = none) :
    ∀ pre' rest', doc = pre' ++ kindLit ++ rest' → '\n' ∉ rest' := by
  induction doc with
  | nil =>
    intro pre' rest' hs
    have := congrArg List.length hs
    simp only [kindLit, List.length_nil, List.length_append, List.length_cons] at this
    omega
  | cons c cs ih =>
    unfold FindStringSubmatch at h
    cases hm : matchKindAt (c :: cs) with
    | some w => simp [hm] at h
    | none =>
      rw [hm] at h
      intro pre' rest' hs'
      cases pre' with
      | nil => exact matchKindAt_none hm rest' (by simpa using hs')
      | cons d pre'' =>
        simp only [List.cons_append, List.cons.injEq] at hs'
        exact ih h pre'' rest' (by simpa using hs'.2)

/-! ## The extraction loop -/

/-- The loop over the pieces keeps those of non-zero length, in order. -/
theorem filterMap_manifestOf (k : Str) (docs : List Str) :
    docs.filterMap (manifestOf k) =
      (docs.filter (fun doc => decide (doc ≠ []))).map
        (fun doc => { name := k, content := trimNewlines doc, kind := kindOf doc }) := by
  induction docs with
  | nil => rfl
  | cons d ds ih =>
    cases d with
    | nil => simpa [manifestOf] using ih
    | cons c cs => simp [manifestOf, ih]

/-- Each record comes from a piece of non-zero length. -/
theorem mem_extract {k text : Str} {r : Manifest} (h : r ∈ extract k text) :
    ∃ doc ∈ Split text, doc ≠ [] ∧
      r = { name := k, content := trimNewlines doc, kind := kindOf doc } := by
  rw [extract, filterMap_manifestOf] at h
  simp only [List.mem_map, List.mem_filter, decide_eq_true_eq] at h
  obtain ⟨doc, ⟨hd, hne⟩, hr⟩ := h
  exact ⟨doc, hd, hne, hr.symm⟩

/-- Every piece of `Split` is a contiguous part of the text. -/
theorem split_piece_in_text {text doc : Str} (h : doc ∈ Split text) : doc <:+: text := by
  have ht := scan_text Mode.lineStart text
  simp only [reduceCtorEq, if_false, List.nil_append] at ht
  simp only [Split, List.mem_cons, List.mem_map] at h
  rcases h with rfl | ⟨p, hp, rfl⟩
  · exact ⟨[], _, by simpa using ht⟩
  · obtain ⟨l₁, l₂, hl⟩ := List.append_of_mem hp
    refine ⟨(scan Mode.lineStart text).1 ++ (l₁.map (fun p => p.1 ++ p.2)).flatten ++ p.1,
      (l₂.map (fun p => p.1 ++ p.2)).flatten, ?_⟩
    rw [hl] at ht
    simpa [List.append_assoc] using ht

/-- No piece of `Split` holds a line that begins with `---`. -/
theorem split_no_sepLine {text doc : Str} (h : doc ∈ Split text) :
    hasSepLine true doc = false := by
  have hs := scan_no_sepLine Mode.lineStart text
  simp only [Split, List.mem_cons, List.mem_map] at h
  rcases h with rfl | ⟨p, hp, rfl⟩
  · simpa using hs.1
  · exact hs.2 p hp

/-- The pieces and matches of a scan result, put together again. -/
theorem reassemble_map (a : Str) (r : List (Str × Str)) :
    reassemble (a :: r.map Prod.snd) (r.map Prod.fst) =
      a ++ (r.map (fun p => p.1 ++ p.2)).flatten := by
  induction r generalizing a with
  | nil => simp [reassemble]
  | cons p r ih => simp [reassemble, ih]

/-! ## The claims on extraction -/

/-- C6: separator splitting.  `Split` cuts the text exactly at the lines that begin with
`---`: the pieces and the matches between them make up the text; every match begins with
`---` and holds no newline; a match starts at the start of a line and runs to the end of
it (the first piece, when a match follows it, is empty or ends with a newline, the pieces
between two matches start and end with a newline, the piece after the last match is empty
or starts with a newline); no piece holds a line that begins with `---`; the records of a
source are those of its pieces of non-zero length, in the order of the pieces; and the
text `kind: Namespace\nname: x\n---\nkind: ConfigMap\nname: y\n` gives two records, of
kinds `Namespace` and `ConfigMap` in that order. -/
theorem split_at_separator_lines (k text : Str) :
    (Split text).length = (FindAllString text).length + 1 ∧
    reassemble (Split text) (FindAllString text) = text ∧
    (∀ m ∈ FindAllString text, sepLit <+: m ∧ '\n' ∉ m) ∧
    (∀ f, (Split text).head? = some f → FindAllString text ≠ [] →
      f = [] ∨ f.getLast? = some '\n') ∧
    (∀ f ∈ (Split text).tail.dropLast, f.head? = some '\n' ∧ f.getLast? = some '\n') ∧
    (∀ f, (Split text).tail.getLast? = some f → f = [] ∨ f.head? = some '\n') ∧
    (∀ f ∈ Split text, ∀ pre post, f = pre ++ sepLit ++ post →
      pre ≠ [] ∧ pre.getLast? ≠ some '\n') ∧
    extract k text = ((Split text).filter (fun doc => decide (doc ≠ []))).map
      (fun doc => { name := k, content := trimNewlines doc, kind := kindOf doc }) ∧
    extract k "kind: Namespace\nname: x\n---\nkind: ConfigMap\nname: y\n".toList =
      [{ name := k, content := "kind: Namespace\nname: x".toList, kind := "Namespace".toList },
       { name := k, content := "kind: ConfigMap\nname: y".toList, kind := "ConfigMap".toList }] := by
  have hafter := scan_after_sep Mode.lineStart text
  have hbefore := scan_before_sep Mode.lineStart text
  refine ⟨by simp [Split, FindAllString], ?_, ?_, ?_, ?_, ?_, ?_, filterMap_manifestOf k _, rfl⟩
  · have ht := scan_text Mode.lineStart text
    simp only [reduceCtorEq, if_false, List.nil_append] at ht
    rw [Split, FindAllString, reassemble_map, ht]
  · intro m hm
    simp only [FindAllString, List.mem_map] at hm
    obtain ⟨p, hp, rfl⟩ := hm
    exact scan_sep_shape Mode.lineStart text p hp
  · intro f hf hne
    simp only [Split, List.head?_cons, Option.some.injEq] at hf
    subst hf
    have hne' : (scan Mode.lineStart text).2 ≠ [] := by
      intro h0
      exact hne (by simp [FindAllString, h0])
    rcases hbefore.1 hne' with ⟨h, _⟩ | h
    · exact Or.inl h
    · exact Or.inr h
  · intro f hf
    simp only [Split, List.tail_cons, ← List.map_dropLast, List.mem_map] at hf
    obtain ⟨p, hp, rfl⟩ := hf
    have hlast := hbefore.2 p hp
    refine ⟨?_, hlast⟩
    rcases hafter p (List.dropLast_subset _ hp) with h | h
    · simp [h] at hlast
    · exact h
  · intro f hf
    simp only [Split, List.tail_cons] at hf
    have hmem := List.mem_of_getLast?_eq_some hf
    simp only [List.mem_map] at hmem
    obtain ⟨p, hp, rfl⟩ := hmem
    exact hafter p hp
  · intro f hf pre post hfe
    have hno := split_no_sepLine hf
    constructor
    · intro h0
      rw [hfe, hasSepLine_of_occurrence true pre post (Or.inl ⟨h0, rfl⟩)] at hno
      exact absurd hno (by decide)
    · intro h0
      rw [hfe, hasSepLine_of_occurrence true pre post (Or.inr h0)] at hno
      exact absurd hno (by decide)

/-- C7: content preservation.  The content of a record is its piece with the leading and
the trailing newlines removed and nothing else changed: the piece is newlines, then the
content, then newlines; the content neither starts nor ends with a newline and is a
contiguous part of the text; and the record carries the source it was extracted from. -/
theorem content_preserved (k text : Str) (r : Manifest) (h : r ∈ extract k text) :
    r.name = k ∧ r.content <:+: text ∧
    r.content.head? ≠ some '\n' ∧ r.content.getLast? ≠ some '\n' ∧
    ∃ doc ∈ Split text, doc ≠ [] ∧ r.content = trimNewlines doc ∧
      ∃ a b, doc = a ++ r.content ++ b ∧ (∀ c ∈ a, c = '\n') ∧ (∀ c ∈ b, c = '\n') := by
  obtain ⟨doc, hdoc, hne, rfl⟩ := mem_extract h
  obtain ⟨a, b, hab, ha, hb, hhead, hlast⟩ := trim_spec (fun c => decide (c = '\n')) doc
  have hab' : doc = a ++ trimNewlines doc ++ b := hab
  refine ⟨rfl, ?_, ?_, ?_, doc, hdoc, hne, rfl, a, b, hab', ?_, ?_⟩
  · exact List.IsInfix.trans ⟨a, b, hab'.symm⟩ (split_piece_in_text hdoc)
  · intro h0
    simpa using hhead '\n' h0
  · intro h0
    simpa using hlast '\n' h0
  · intro c hc
    simpa using ha c hc
  · intro c hc
    simpa using hb c hc

/-- C10: no content holds a separator.  No line of the content of a record begins with
`---`: wherever `---` occurs in the content, something other than a newline stands right
before it. -/
theorem content_no_separator_line (k text : Str) (r : Manifest) (h : r ∈ extract k text) :
    ∀ pre post, r.content = pre ++ sepLit ++ post → pre ≠ [] ∧ pre.getLast? ≠ some '\n' := by
  obtain ⟨doc, hdoc, _, rfl⟩ := mem_extract h
  intro pre post hc
  have hno := hasSepLine_trimNewlines doc (split_no_sepLine hdoc)
  simp only at hc
  constructor
  · intro h0
    rw [hc, hasSepLine_of_occurrence true pre post (Or.inl ⟨h0, rfl⟩)] at hno
    exact absurd hno (by decide)
  · intro h0
    rw [hc, hasSepLine_of_occurrence true pre post (Or.inr h0)] at hno
    exact absurd hno (by decide)

/-- What the classification of `run` computes, the unanchored search included: the kind
of a record is the value of the leftmost `kind:<value>` followed by a newline anywhere in
its piece, at the start of a line or not, with the white space at both ends of the value
removed and nothing else; it is `Unknown` when the piece has no `kind:` in a line that
ends with a newline; a non-empty text with no line beginning with `---` and no such
`kind:` gives one record, of kind `Unknown`. -/
theorem kind_classification (k text : Str) :
    (∀ r ∈ extract k text, ∃ doc ∈ Split text, doc ≠ [] ∧ r.content = trimNewlines doc ∧
      ((∃ pre v post, doc = pre ++ kindLit ++ v ++ '\n' :: post ∧ '\n' ∉ v ∧
          (∀ pre' rest', doc = pre' ++ kindLit ++ rest' → '\n' ∈ rest' →
            pre.length ≤ pre'.length) ∧
          r.kind = TrimSpace v ∧
          ∃ a b, v = a ++ r.kind ++ b ∧ (∀ c ∈ a, isSpace c = true) ∧
            (∀ c ∈ b, isSpace c = true) ∧
            (∀ c, r.kind.head? = some c → isSpace c = false) ∧
            (∀ c, r.kind.getLast? = some c → isSpace c = false)) ∨
       ((∀ pre' rest', doc = pre' ++ kindLit ++ rest' → '\n' ∉ rest') ∧
          r.kind = kindUnknown))) ∧
    (text ≠ [] →
      (∀ pre post, text = pre ++ sepLit ++ post → pre ≠ [] ∧ pre.getLast? ≠ some '\n') →
      (∀ pre rest, text = pre ++ kindLit ++ rest → '\n' ∉ rest) →
      extract k text = [{ name := k, content := trimNewlines text, kind := kindUnknown }]) := by
  constructor
  · intro r h
    obtain ⟨doc, hdoc, hne, rfl⟩ := mem_extract h
    refine ⟨doc, hdoc, hne, rfl, ?_⟩
    simp only [kindOf]
    cases hf : FindStringSubmatch doc with
    | some v =>
      obtain ⟨pre, post, hs, hv, hmin⟩ := FindStringSubmatch_some hf
      obtain ⟨a, b, hab, ha, hb, hhead, hlast⟩ := trim_spec isSpace v
      exact Or.inl ⟨pre, v, post, hs, hv, hmin, rfl, a, b, hab, ha, hb, hhead, hlast⟩
    | none => exact Or.inr ⟨FindStringSubmatch_none hf, rfl⟩
  · intro hne hsep hkind
    have hno : hasSepLine true text = false := by
      by_contra hc
      rw [Bool.not_eq_false] at hc
      obtain ⟨pre, post, hs, hpre⟩ := occurrence_of_hasSepLine true text hc
      have := hsep pre post hs
      rcases hpre with ⟨h0, _⟩ | h0
      · exact this.1 h0
      · exact this.2 h0
    have hscan : scan Mode.lineStart text = (text, []) :=
      scan_of_no_sepLine Mode.lineStart (by decide) text (by simpa using hno)
    have hfind : FindStringSubmatch text = none := by
      cases hf : FindStringSubmatch text with
      | none => rfl
      | some v =>
        obtain ⟨pre, post, hs, _, _⟩ := FindStringSubmatch_some hf
        exact absurd (List.mem_append_right v (List.mem_cons_self '\n' post))
          (hkind pre (v ++ '\n' :: post) (by simpa [List.append_assoc] using hs))
    have hlen : text.length ≠ 0 := by
      intro h0
      exact hne (List.length_eq_zero.mp h0)
    simp [extract, Split, hscan, manifestOf, hlen, kindOf, hfind]

/-- C8, as the code has it: the output is made of the blocks of the records, in order; the
block of a record of another kind than `Unknown` is the `---` line, the source comment
and the content; the block of a record of kind `Unknown` is the `---` line, the source
comment and the warning, without the content. -/
theorem render_blocks :
    render [] = [] ∧
    (∀ ms₁ ms₂ : List Manifest, render (ms₁ ++ ms₂) = render ms₁ ++ render ms₂) ∧
    (∀ m : Manifest, m.kind ≠ kindUnknown →
      render [m] = "---\n".toList ++ "# Source: ".toList ++ m.name ++ "\n".toList ++
        m.content ++ "\n".toList) ∧
    (∀ m : Manifest, m.kind = kindUnknown →
      render [m] = "---\n".toList ++ "# Source: ".toList ++ m.name ++ "\n".toList ++
        warningLine ++ "\n".toList) ∧
    (∀ ms : List Manifest, (∀ m ∈ ms, m.kind ≠ kindUnknown) →
      render ms = (ms.map specRenderOne).flatten) := by
  refine ⟨rfl, ?_, ?_, ?_, ?_⟩
  · intro ms₁ ms₂
    simp [render]
  · intro m hm
    simp [render, renderOne, hm]
  · intro m hm
    simp [render, renderOne, hm]
  · intro ms hms
    unfold render
    congr 1
    apply List.map_congr_left
    intro m hm
    simp [renderOne, specRenderOne, hms m hm]

/-! ## Concrete runs -/

/-- C4: the empty-fragment check runs before the trimming.  For the text
`---\n\n---\nkind: Pod\n` the pieces are `""`, `"\n\n"` and `"\nkind: Pod\n"`; only the piece
of length zero is skipped, so the piece `"\n\n"` becomes a record of kind `Unknown` with
empty content, and two records are produced instead of one. -/
theorem newline_fragment_kept :
    Split "---\n\n---\nkind: Pod\n".toList = ["".toList, "\n\n".toList, "\nkind: Pod\n".toList] ∧
    extract "f".toList "---\n\n---\nkind: Pod\n".toList =
      [{ name := "f".toList, content := [], kind := kindUnknown },
       { name := "f".toList, content := "kind: Pod".toList, kind := "Pod".toList }] ∧
    (extract "f".toList "---\n\n---\nkind: Pod\n".toList).length = 2 := by
  decide

/-- C5: the pattern `kind:(.*)\n` of `run` lacks the line anchor that the separator
pattern next to it has, so a `kind:` that does not begin a line is taken for the kind of
the document.  The ConfigMap
`apiVersion: v1\ndata:\n  foo.yaml: |\n    kind: Deployment\nkind: ConfigMap\n`, whose
data holds the text `kind: Deployment`, gets the kind `Deployment`, where the line-anchored
classification gives `ConfigMap`; the piece `mykind: X\nkind: Pod\n` gets the kind `X`
instead of `Pod`, and the piece `  kind: X\n` gets the kind `X` instead of `Unknown`. -/
theorem kind_not_line_anchored :
    extract "f".toList
        "apiVersion: v1\ndata:\n  foo.yaml: |\n    kind: Deployment\nkind: ConfigMap\n".toList =
      [{ name := "f".toList,
         content :=
           "apiVersion: v1\ndata:\n  foo.yaml: |\n    kind: Deployment\nkind: ConfigMap".toList,
         kind := "Deployment".toList }] ∧
    specKindOf
        "apiVersion: v1\ndata:\n  foo.yaml: |\n    kind: Deployment\nkind: ConfigMap\n".toList =
      "ConfigMap".toList ∧
    extract "f".toList "mykind: X\nkind: Pod\n".toList =
      [{ name := "f".toList, content := "mykind: X\nkind: Pod".toList, kind := "X".toList }] ∧
    specKindOf "mykind: X\nkind: Pod\n".toList = "Pod".toList ∧
    extract "f".toList "  kind: X\n".toList =
      [{ name := "f".toList, content := "  kind: X".toList, kind := "X".toList }] ∧
    specKindOf "  kind: X\n".toList = kindUnknown := by
  decide

/-- C8 fails as stated: the content of a record of kind `Unknown` is not printed.  For
one record of kind `Unknown` with content `hello` the output is the `---` line, the
source comment and the warning; the content occurs nowhere in it, and the output differs
from the one that emits the content. -/
theorem unknown_content_not_printed :
    render [{ name := "a".toList, content := "hello".toList, kind := kindUnknown }] =
      "---\n# Source: a\n# WARNING: It looks like that this file is not a manifest file\n".toList ∧
    ¬ ("hello".toList <:+:
      render [{ name := "a".toList, content := "hello".toList, kind := kindUnknown }]) ∧
    render [{ name := "a".toList, content := "hello".toList, kind := kindUnknown }] ≠
      specRenderOne { name := "a".toList, content := "hello".toList, kind := kindUnknown } := by
  decide

/-! ## Instances of the theorems at the sample inputs -/

/-- Stability at `sampleRecords`: the two `Deployment` records keep their order. -/
theorem sortByKind_stable_witness :
    rank sampleTable ("Deployment".toList) = rank sampleTable ("Deployment".toList) ∧
    List.Sublist
      [{ name := "a".toList, content := "1".toList, kind := "Deployment".toList },
       { name := "c".toList, content := "3".toList, kind := "Deployment".toList }]
      sampleRecords ∧
    List.Sublist
      [{ name := "a".toList, content := "1".toList, kind := "Deployment".toList },
       { name := "c".toList, content := "3".toList, kind := "Deployment".toList }]
      (sortByKind sampleTable sampleRecords) :=
  ⟨rfl, by decide,
    (sortByKind_stable sampleTable sampleRecords).1
      { name := "a".toList, content := "1".toList, kind := "Deployment".toList }
      { name := "c".toList, content := "3".toList, kind := "Deployment".toList }
      rfl (by decide)⟩

/-- Content preservation at `sampleText` and its record. -/
theorem content_preserved_witness :
    sampleRecord ∈ extract sampleSource sampleText ∧
    (sampleRecord.name = sampleSource ∧ sampleRecord.content <:+: sampleText ∧
      sampleRecord.content.head? ≠ some '\n' ∧ sampleRecord.content.getLast? ≠ some '\n' ∧
      ∃ doc ∈ Split sampleText, doc ≠ [] ∧ sampleRecord.content = trimNewlines doc ∧
        ∃ a b, doc = a ++ sampleRecord.content ++ b ∧ (∀ c ∈ a, c = '\n') ∧
          (∀ c ∈ b, c = '\n')) :=
  ⟨by decide, content_preserved sampleSource sampleText sampleRecord (by decide)⟩

/-- The `---` inside the content of `dashRecord` does not begin a line. -/
theorem content_no_separator_line_witness :
    dashRecord ∈ extract sampleSource dashText ∧
    dashRecord.content = "a: ".toList ++ sepLit ++ [] ∧
    ("a: ".toList ≠ [] ∧ "a: ".toList.getLast? ≠ some '\n') :=
  ⟨by decide, by decide,
    content_no_separator_line sampleSource dashText dashRecord (by decide)
      "a: ".toList [] (by decide)⟩

/-- Classification at `sampleText`, whose record has the kind `Pod`, and at `plainText`,
which gives one record of kind `Unknown`. -/
theorem kind_classification_witness :
    sampleRecord ∈ extract sampleSource sampleText ∧
    (∃ doc ∈ Split sampleText, doc ≠ [] ∧ sampleRecord.content = trimNewlines doc ∧
      ((∃ pre v post, doc = pre ++ kindLit ++ v ++ '\n' :: post ∧ '\n' ∉ v ∧
          (∀ pre' rest', doc = pre' ++ kindLit ++ rest' → '\n' ∈ rest' →
            pre.length ≤ pre'.length) ∧
          sampleRecord.kind = TrimSpace v ∧
          ∃ a b, v = a ++ sampleRecord.kind ++ b ∧ (∀ c ∈ a, isSpace c = true) ∧
            (∀ c ∈ b, isSpace c = true) ∧
            (∀ c, sampleRecord.kind.head? = some c → isSpace c = false) ∧
            (∀ c, sampleRecord.kind.getLast? = some c → isSpace c = false)) ∨
       ((∀ pre' rest', doc = pre' ++ kindLit ++ rest' → '\n' ∉ rest') ∧
          sampleRecord.kind = kindUnknown))) ∧
    plainText ≠ [] ∧
    extract sampleSource plainText =
      [{ name := sampleSource, content := trimNewlines plainText, kind := kindUnknown }] :=
  ⟨by decide,
    (kind_classification sampleSource sampleText).1 sampleRecord (by decide),
    by decide,
    (kind_classification sampleSource plainText).2 (by decide)
      (fun pre post hs =>
        ⟨fun h0 => absurd (hs ▸ hasSepLine_of_occurrence true pre post (Or.inl ⟨h0, rfl⟩))
            (by decide),
          fun h0 => absurd (hs ▸ hasSepLine_of_occurrence true pre post (Or.inr h0))
            (by decide)⟩)
      (FindStringSubmatch_none (by decide))⟩

/-- The cuts of `dashText`: two separator lines, three pieces. -/
theorem split_at_separator_lines_witness :
    ("--- x".toList ∈ FindAllString dashText ∧
      (sepLit <+: "--- x".toList ∧ '\n' ∉ "--- x".toList)) ∧
    ((Split dashText).head? = some "a: ---\n".toList ∧ FindAllString dashText ≠ [] ∧
      ("a: ---\n".toList = [] ∨ "a: ---\n".toList.getLast? = some '\n')) ∧
    ("\nb\n".toList ∈ (Split dashText).tail.dropLast ∧
      ("\nb\n".toList.head? = some '\n' ∧ "\nb\n".toList.getLast? = some '\n')) ∧
    ((Split dashText).tail.getLast? = some "\nc".toList ∧
      ("\nc".toList = [] ∨ "\nc".toList.head? = some '\n')) ∧
    ("a: ---\n".toList ∈ Split dashText ∧
      "a: ---\n".toList = "a: ".toList ++ sepLit ++ "\n".toList ∧
      ("a: ".toList ≠ [] ∧ "a: ".toList.getLast? ≠ some '\n')) :=
  ⟨⟨by decide, (split_at_separator_lines sampleSource dashText).2.2.1 _ (by decide)⟩,
    ⟨by decide, by decide,
      (split_at_separator_lines sampleSource dashText).2.2.2.1 _ (by decide) (by decide)⟩,
    ⟨by decide, (split_at_separator_lines sampleSource dashText).2.2.2.2.1 _ (by decide)⟩,
    ⟨by decide, (split_at_separator_lines sampleSource dashText).2.2.2.2.2.1 _ (by decide)⟩,
    ⟨by decide, by decide,
      (split_at_separator_lines sampleSource dashText).2.2.2.2.2.2.1 "a: ---\n".toList
        (by decide) "a: ".toList "\n".toList (by decide)⟩⟩

/-- The blocks printed for `sampleRecord` and for `dashRecord`. -/
theorem render_blocks_witness :
    sampleRecord.kind ≠ kindUnknown ∧
    render [sampleRecord] = "---\n".toList ++ "# Source: ".toList ++ sampleRecord.name ++
      "\n".toList ++ sampleRecord.content ++ "\n".toList ∧
    dashRecord.kind = kindUnknown ∧
    render [dashRecord] = "---\n".toList ++ "# Source: ".toList ++ dashRecord.name ++
      "\n".toList ++ warningLine ++ "\n".toList ∧
    (∀ m ∈ [sampleRecord], m.kind ≠ kindUnknown) ∧
    render [sampleRecord] = ([sampleRecord].map specRenderOne).flatten :=
  ⟨by decide, render_blocks.2.2.1 sampleRecord (by decide),
    rfl, render_blocks.2.2.2.1 dashRecord rfl,
    by decide, render_blocks.2.2.2.2 [sampleRecord] (by decide)⟩

end Ksort
